import Mathlib

/-!
Shallow embedding of `src/Djikstra_grid_path_finder.py` (class `GridPathfinder`).

Positions are pairs of integers `(row, col)`, as in the Python tuples (integers,
so that the out-of-bounds candidates produced by adding a direction offset are
represented faithfully before the bounds check filters them).

The Python priority queue (`heapq`) holds tuples `(distance, position, path)`
compared lexicographically.  Two queue entries never agree on both `distance`
and `position` (a second push for a position requires a strictly smaller
distance), so every pop extracts the unique minimum of the current multiset of
entries; we therefore model the heap as a list kept sorted by the same
lexicographic order, with `pqPush` the sorted insertion and popping taking the
head.  The search loop is given explicit fuel; `FUEL` is large enough that the
fuel never runs out (proved below), so the `fuelOut` outcome is unreachable.
-/

abbrev Pos : Type := Int × Int

/-- A frontier entry `(distance, position, path)`, exactly the Python tuple. -/
abbrev Entry : Type := Nat × Pos × List Pos

/-- Lexicographic order on positions, as Python compares int pairs. -/
def posLt (a b : Pos) : Bool := a.1 < b.1 || (a.1 == b.1 && a.2 < b.2)

/-- Lexicographic order on lists of positions, as Python compares lists. -/
def posListLt : List Pos → List Pos → Bool
  | _, [] => false
  | [], _ :: _ => true
  | x :: xs, y :: ys => posLt x y || (x == y && posListLt xs ys)

/-- Lexicographic comparison of heap entries, as Python compares the
`(distance, position, path)` tuples pushed by `find_shortest_path`. -/
def entryLE (e f : Entry) : Bool :=
  e.1 < f.1 || (e.1 == f.1 && (posLt e.2.1 f.2.1 || (e.2.1 == f.2.1 &&
    (posListLt e.2.2 f.2.2 || e.2.2 == f.2.2))))

/-- Sorted insertion, modelling `heapq.heappush`: the queue is kept sorted by
the entry order, so the head is always the minimum entry. -/
def pqPush (e : Entry) : List Entry → List Entry
  | [] => [e]
  | f :: fs => if entryLE e f then e :: f :: fs else f :: pqPush e fs

/-- The state built by `GridPathfinder.__init__`: the grid converted to a 2D
list of characters, the row and column counts, and the scanned start and goal
positions (`find_position` returns `None` when a marker is absent). -/
structure GridPathfinder where
  grid : List (List Char)
  rows : Nat
  cols : Nat
  start : Option Pos
  goal : Option Pos

/-- Cell lookup `self.grid[r][c]`.  The defaults are only reachable for indices
outside the grid; every use in the embedded code is guarded by the same bounds
checks the Python performs before indexing. -/
def cellAt (grid : List (List Char)) (p : Pos) : Char :=
  (grid.getD p.1.toNat []).getD p.2.toNat ' '

/-- Inner loop of `find_position`: scan columns `0..cols-1` of one row. -/
def scanRow (row : List Char) (cols : Nat) (ch : Char) : Option Nat :=
  (List.range cols).find? (fun j => row.getD j ' ' == ch)

/-- Row-major scan of `find_position`, carrying the current row index. -/
def findPosAux (cols : Nat) (ch : Char) : Nat → List (List Char) → Option Pos
  | _, [] => none
  | i, row :: rest =>
    match scanRow row cols ch with
    | some j => some ((i : Int), (j : Int))
    | none => findPosAux cols ch (i + 1) rest

/-- `find_position`: first position (row-major) whose cell equals `ch`,
`none` when the character does not occur. -/
def find_position (grid : List (List Char)) (cols : Nat) (ch : Char) : Option Pos :=
  findPosAux cols ch 0 grid

/-- Constructor `GridPathfinder(grid)`. -/
def GridPathfinder.make (g : List String) : GridPathfinder :=
  { grid := g.map String.toList
    rows := (g.map String.toList).length
    cols := ((g.map String.toList).headD []).length
    start := find_position (g.map String.toList)
      ((g.map String.toList).headD []).length 'S'
    goal := find_position (g.map String.toList)
      ((g.map String.toList).headD []).length 'G' }

/-- Bounds check `0 <= r < rows and 0 <= c < cols`. -/
abbrev inB (gp : GridPathfinder) (p : Pos) : Prop :=
  0 ≤ p.1 ∧ p.1 < (gp.rows : Int) ∧ 0 ≤ p.2 ∧ p.2 < (gp.cols : Int)

/-- One direction check of `get_neighbors`: the candidate cell is kept when it
is in bounds and not blocked. -/
def checkDir (gp : GridPathfinder) (pos : Pos) (d : Int × Int) : List Pos :=
  if inB gp (pos.1 + d.1, pos.2 + d.2) ∧
      cellAt gp.grid (pos.1 + d.1, pos.2 + d.2) ≠ '1' then
    [(pos.1 + d.1, pos.2 + d.2)]
  else []

/-- `get_neighbors`: the four orthogonal candidates in the source order
N, S, W, E, filtered by bounds and the blocked marker. -/
def GridPathfinder.get_neighbors (gp : GridPathfinder) (pos : Pos) : List Pos :=
  checkDir gp pos (-1, 0) ++ checkDir gp pos (1, 0) ++
    checkDir gp pos (0, -1) ++ checkDir gp pos (0, 1)

/-- `new_dist < distances.get(next_pos, float('inf'))`. -/
def ltInf (n : Nat) : Option Nat → Bool
  | none => true
  | some v => n < v

/-- The neighbor loop of `find_shortest_path`: relax each neighbor in order,
pushing an entry and updating the distance map on success. -/
def relaxList (d : Nat) (path : List Pos) :
    List Pos → List Entry → (Pos → Option Nat) → List Entry × (Pos → Option Nat)
  | [], pq, dist => (pq, dist)
  | q :: qs, pq, dist =>
    if ltInf (d + 1) (dist q) then
      relaxList d path qs (pqPush (d + 1, q, path ++ [q]) pq)
        (fun x => if x = q then some (d + 1) else dist x)
    else
      relaxList d path qs pq dist

/-- The `while pq:` loop of `find_shortest_path`, with explicit fuel.
`none` means the fuel ran out (shown below never to happen for `FUEL`). -/
def dloop (gp : GridPathfinder) (goal : Option Pos) :
    Nat → List Entry → (Pos → Option Nat) → Finset Pos →
      Option (Option (List Pos) × Finset Pos)
  | 0, _, _, _ => none
  | _ + 1, [], _, explored => some (none, explored)
  | fuel + 1, e :: rest, dist, explored =>
    if e.2.1 ∈ explored then
      dloop gp goal fuel rest dist explored
    else if goal = some e.2.1 then
      some (some e.2.2, insert e.2.1 explored)
    else
      dloop gp goal fuel
        (relaxList e.1 e.2.2 (gp.get_neighbors e.2.1) rest dist).1
        (relaxList e.1 e.2.2 (gp.get_neighbors e.2.1) rest dist).2
        (insert e.2.1 explored)

/-- Fuel bound: more than `4 * cells + pq length` iterations can never happen
(each processed pop consumes a fresh cell and pushes at most four entries). -/
def FUEL (gp : GridPathfinder) : Nat := 4 * (gp.rows * gp.cols + 2) + 8

/-- The search for a present start position: initial queue
`[(0, start, [start])]`, initial distance map `{start: 0}`, empty explored. -/
def dijkstra (gp : GridPathfinder) (s : Pos) (goal : Option Pos) :
    Option (Option (List Pos) × Finset Pos) :=
  dloop gp goal (FUEL gp) [(0, s, [s])] (fun q => if q = s then some 0 else none) ∅

/-- Possible outcomes of calling `find_shortest_path` on the Python object.
`ok (path?, explored)` is the normal return value.  `typeError` is the
uncaught `TypeError` raised by `get_neighbors` unpacking `None` when the start
marker is absent but the goal marker is present (the initial entry is popped,
`None` is added to `explored`, `None != goal`, then `row, col = None` fails).
`nullEcho` is the return value `([None], {None})` produced when both markers
are absent: the initial pop carries position `None`, which immediately equals
the `None` goal.  `fuelOut` is an artifact of the fuel encoding, proved
unreachable. -/
inductive SearchOutcome where
  | ok : Option (List Pos) × Finset Pos → SearchOutcome
  | nullEcho : SearchOutcome
  | typeError : SearchOutcome
  | fuelOut : SearchOutcome
deriving DecidableEq

/-- `find_shortest_path`.  The Python body runs uniformly with `self.start`
and `self.goal` possibly `None`; the two `None`-start branches are the partial
evaluation of that body on those values (see `SearchOutcome`). -/
def GridPathfinder.find_shortest_path (gp : GridPathfinder) : SearchOutcome :=
  match gp.start with
  | none =>
    match gp.goal with
    | none => .nullEcho
    | some _ => .typeError
  | some s =>
    match dijkstra gp s gp.goal with
    | none => .fuelOut
    | some r => .ok r

/-- Final value of one cell of `vis_grid` in `visualize_path`.  The two Python
loops write `'.'` (explored, off the path, not a marker) and then `'*'` (on the
path, not a marker); each write targets its own cell with a value independent
of iteration order, so the set/list iteration order of the source is
immaterial and the result is this per-cell function of the original cell. -/
def visCell (path : List Pos) (explored : Finset Pos) (p : Pos) (c : Char) : Char :=
  let c1 := if p ∈ explored ∧ p ∉ path ∧ c ≠ 'S' ∧ c ≠ 'G' then '.' else c
  if p ∈ path ∧ c1 ≠ 'S' ∧ c1 ≠ 'G' then '*' else c1

/-- The `vis_grid` built by `visualize_path` on a fresh copy of the grid. -/
def visualize_grid (gp : GridPathfinder) (path : List Pos) (explored : Finset Pos) :
    List (List Char) :=
  gp.grid.mapIdx fun i row => row.mapIdx fun j c =>
    visCell path explored ((i : Int), (j : Int)) c

/-- `visualize_path`: the lines printed (each row joined to a string). -/
def GridPathfinder.visualize_path (gp : GridPathfinder) (path : List Pos)
    (explored : Finset Pos) : List String :=
  (visualize_grid gp path explored).map List.asString

/-- State-passing form of `find_shortest_path`: the method reads
`self.grid`, `self.rows`, `self.cols`, `self.start`, `self.goal` and assigns
no attribute, so the post-state is the pre-state. -/
def find_shortest_path_st (gp : GridPathfinder) : GridPathfinder × SearchOutcome :=
  (gp, gp.find_shortest_path)

/-- State-passing form of `visualize_path`: the method writes only into the
fresh copy `vis_grid` and mutates neither `self` nor its `path` and
`explored` arguments, so all three come back unchanged. -/
def visualize_path_st (gp : GridPathfinder) (path : List Pos) (explored : Finset Pos) :
    GridPathfinder × List Pos × Finset Pos × List String :=
  (gp, path, explored, gp.visualize_path path explored)

/-- Distance component order on entries, the part of the entry order that the
correctness proofs use: the sorted queue is pairwise ordered by distance. -/
def dLE (e f : Entry) : Prop := e.1 ≤ f.1

/-- A walk: a nonempty list of positions from `a` to `b` in which every
consecutive step moves to a `get_neighbors` neighbor. -/
def IsWalk (gp : GridPathfinder) (π : List Pos) (a b : Pos) : Prop :=
  π.head? = some a ∧ π.getLast? = some b ∧
    List.Chain' (fun p q => q ∈ gp.get_neighbors p) π

/-- There is a walk from `a` to `b` with exactly `n` edges. -/
def ReachN (gp : GridPathfinder) (a b : Pos) (n : Nat) : Prop :=
  ∃ π, IsWalk gp π a b ∧ π.length = n + 1

/-- Orthogonal adjacency in the words of the specification: the positions
differ by exactly one step in exactly one coordinate. -/
abbrev specAdj (p q : Pos) : Prop :=
  (q.1 = p.1 ∧ (q.2 = p.2 + 1 ∨ q.2 = p.2 - 1)) ∨
  (q.2 = p.2 ∧ (q.1 = p.1 + 1 ∨ q.1 = p.1 - 1))

/-- A cell the specification lets a path use: in bounds and not blocked. -/
abbrev specOpen (gp : GridPathfinder) (p : Pos) : Prop :=
  inB gp p ∧ cellAt gp.grid p ≠ '1'

/-- A connecting sequence in the words of the claims: consecutive positions
orthogonally adjacent, every position in bounds and not carrying `'1'`. -/
def SpecWalk (gp : GridPathfinder) (π : List Pos) (a b : Pos) : Prop :=
  π.head? = some a ∧ π.getLast? = some b ∧
    (∀ p ∈ π, specOpen gp p) ∧ List.Chain' specAdj π

/-- All in-bounds positions of the grid, as a finite set. -/
def innerCells (gp : GridPathfinder) : Finset Pos :=
  (Finset.range gp.rows ×ˢ Finset.range gp.cols).image
    fun ij => ((ij.1 : Int), (ij.2 : Int))

/-- Positions that can ever occur in the frontier: the start plus the
in-bounds cells (every pushed neighbor is in bounds). -/
def cands (gp : GridPathfinder) (s : Pos) : Finset Pos := insert s (innerCells gp)

/-- Invariant of the `while pq:` loop.  `sortedD` keeps the queue pairwise
ordered by distance (so the head has minimal distance); `entryWalk` says each
entry carries a real walk of the recorded length; `entryDist` says the
distance map dominates every entry; `distSound` says every recorded distance
is attained by a walk; `expOpt` says finalized positions hold optimal
distances; `expRelax` says every edge out of a finalized position has been
relaxed; `pending` says every recorded-but-unfinalized position still has a
queue entry at exactly its recorded distance; `goalNotExp` says the loop has
not yet finalized the goal (it would have returned). -/
structure LoopInv (gp : GridPathfinder) (s : Pos) (goal : Option Pos)
    (pq : List Entry) (dist : Pos → Option Nat) (explored : Finset Pos) : Prop where
  sortedD : pq.Pairwise dLE
  entryWalk : ∀ f ∈ pq, IsWalk gp f.2.2 s f.2.1 ∧ f.2.2.length = f.1 + 1
  entryDist : ∀ f ∈ pq, ∃ v, dist f.2.1 = some v ∧ v ≤ f.1
  distSound : ∀ p v, dist p = some v → ReachN gp s p v
  distStart : dist s = some 0
  expOpt : ∀ p ∈ explored, ∃ v, dist p = some v ∧ ∀ m, ReachN gp s p m → v ≤ m
  expRelax : ∀ p ∈ explored, ∀ q ∈ gp.get_neighbors p,
    ∃ vp vq, dist p = some vp ∧ dist q = some vq ∧ vq ≤ vp + 1
  pending : ∀ p, p ∉ explored → ∀ v, dist p = some v → ∃ f ∈ pq, f.2.1 = p ∧ f.1 = v
  goalNotExp : ∀ g0, goal = some g0 → g0 ∉ explored

/-- What one full relaxation pass guarantees, relative to the queue and
distance map it started from. -/
structure RelaxOut (gp : GridPathfinder) (s : Pos) (d : Nat) (qs : List Pos)
    (pq0 : List Entry) (dist0 : Pos → Option Nat)
    (out : List Entry × (Pos → Option Nat)) : Prop where
  sortedD : out.1.Pairwise dLE
  entryWalk : ∀ f ∈ out.1, IsWalk gp f.2.2 s f.2.1 ∧ f.2.2.length = f.1 + 1
  entryDist : ∀ f ∈ out.1, ∃ v, out.2 f.2.1 = some v ∧ v ≤ f.1
  distSound : ∀ x v, out.2 x = some v → ReachN gp s x v
  mono : ∀ x v, dist0 x = some v → ∃ v2, out.2 x = some v2 ∧ v2 ≤ v
  newPending : ∀ x v, out.2 x = some v →
    dist0 x = some v ∨ ∃ f ∈ out.1, f.2.1 = x ∧ f.1 = v
  superset : ∀ f ∈ pq0, f ∈ out.1
  relaxed : ∀ q ∈ qs, ∃ v, out.2 q = some v ∧ v ≤ d + 1
  frozen : ∀ x v, dist0 x = some v → (∀ m, ReachN gp s x m → v ≤ m) →
    out.2 x = some v

instance : DecidableRel specAdj := fun _ _ => inferInstance

instance (gp : GridPathfinder) : DecidablePred (specOpen gp) := fun _ => inferInstance

/-- Manhattan distance between two positions. -/
def manh (a b : Pos) : Nat := (a.1 - b.1).natAbs + (a.2 - b.2).natAbs

lemma entryLE_fst_le {e f : Entry} (h : entryLE e f = true) : e.1 ≤ f.1 := by
  simp only [entryLE, Bool.or_eq_true, Bool.and_eq_true, decide_eq_true_eq,
    beq_iff_eq] at h
  rcases h with h | h
  · omega
  · exact le_of_eq h.1

lemma entryLE_of_fst_lt {e f : Entry} (h : e.1 < f.1) : entryLE e f = true := by
  simp [entryLE, h]

lemma fst_le_of_not_entryLE {e f : Entry} (h : ¬ entryLE e f = true) : f.1 ≤ e.1 := by
  by_contra hc
  exact h (entryLE_of_fst_lt (by omega))

lemma pqPush_mem (e : Entry) :
    ∀ (pq : List Entry) (x : Entry), x ∈ pqPush e pq ↔ x = e ∨ x ∈ pq := by
  intro pq
  induction pq with
  | nil => intro x; simp [pqPush]
  | cons f fs ih =>
    intro x
    simp only [pqPush]
    split
    · exact List.mem_cons
    · simp only [List.mem_cons, ih]
      tauto

lemma pqPush_length (e : Entry) :
    ∀ pq : List Entry, (pqPush e pq).length = pq.length + 1 := by
  intro pq
  induction pq with
  | nil => rfl
  | cons f fs ih =>
    simp only [pqPush]
    split <;> simp [ih]

lemma pqPush_pairwise (e : Entry) :
    ∀ pq : List Entry, pq.Pairwise dLE → (pqPush e pq).Pairwise dLE := by
  intro pq
  induction pq with
  | nil => intro _; simp [pqPush]
  | cons f fs ih =>
    intro hp
    rw [List.pairwise_cons] at hp
    obtain ⟨hf, hfs⟩ := hp
    simp only [pqPush]
    split
    · rename_i hle
      refine List.Pairwise.cons ?_ (List.Pairwise.cons hf hfs)
      intro b hb
      rcases List.mem_cons.mp hb with rfl | hb
      · exact entryLE_fst_le hle
      · exact le_trans (entryLE_fst_le hle) (hf b hb)
    · rename_i hle
      refine List.Pairwise.cons ?_ (ih hfs)
      intro b hb
      rcases (pqPush_mem e fs b).mp hb with rfl | hb
      · exact fst_le_of_not_entryLE hle
      · exact hf b hb

/-! Neighbor membership characterization. -/

lemma mem_checkDir {gp : GridPathfinder} {pos : Pos} {d : Int × Int} {q : Pos} :
    q ∈ checkDir gp pos d ↔
      (q = (pos.1 + d.1, pos.2 + d.2) ∧ inB gp q ∧ cellAt gp.grid q ≠ '1') := by
  unfold checkDir
  split
  · rename_i h
    simp only [List.mem_singleton]
    constructor
    · rintro rfl; exact ⟨rfl, h⟩
    · rintro ⟨rfl, _⟩; rfl
  · rename_i h
    simp only [List.not_mem_nil, false_iff]
    rintro ⟨rfl, h2⟩
    exact h h2

lemma mem_get_neighbors {gp : GridPathfinder} {p q : Pos} :
    q ∈ gp.get_neighbors p ↔
      ((q = (p.1 + -1, p.2 + 0) ∨ q = (p.1 + 1, p.2 + 0) ∨
        q = (p.1 + 0, p.2 + -1) ∨ q = (p.1 + 0, p.2 + 1)) ∧
        inB gp q ∧ cellAt gp.grid q ≠ '1') := by
  simp only [GridPathfinder.get_neighbors, List.mem_append, mem_checkDir]
  tauto

lemma get_neighbors_length (gp : GridPathfinder) (p : Pos) :
    (gp.get_neighbors p).length ≤ 4 := by
  have h : ∀ d, (checkDir gp p d).length ≤ 1 := by
    intro d
    unfold checkDir
    split <;> simp
  simp only [GridPathfinder.get_neighbors, List.length_append]
  have h1 := h (-1, 0)
  have h2 := h (1, 0)
  have h3 := h (0, -1)
  have h4 := h (0, 1)
  omega

/-! Walks along grid adjacency, and walks in the words of the specification. -/

lemma specAdj_open_iff_neighbor {gp : GridPathfinder} {p q : Pos} :
    (specAdj p q ∧ specOpen gp q) ↔ q ∈ gp.get_neighbors p := by
  rw [mem_get_neighbors]
  rcases p with ⟨p1, p2⟩
  rcases q with ⟨q1, q2⟩
  simp only [Prod.mk.injEq, specAdj, specOpen]
  constructor
  · rintro ⟨hadj, hb, hc⟩
    exact ⟨by omega, hb, hc⟩
  · rintro ⟨heq, hb, hc⟩
    exact ⟨by omega, hb, hc⟩

lemma isWalk_single (gp : GridPathfinder) (a : Pos) : IsWalk gp [a] a a :=
  ⟨rfl, rfl, List.chain'_singleton a⟩

lemma isWalk_nonempty {gp : GridPathfinder} {π : List Pos} {a b : Pos}
    (h : IsWalk gp π a b) : π ≠ [] := by
  intro he
  rw [he] at h
  simpa using h.1

lemma isWalk_cons {gp : GridPathfinder} {x y : Pos} {t : List Pos} {a b : Pos}
    (h : IsWalk gp (x :: y :: t) a b) :
    x = a ∧ y ∈ gp.get_neighbors x ∧ IsWalk gp (y :: t) y b := by
  obtain ⟨h1, h2, h3⟩ := h
  rw [List.chain'_cons] at h3
  refine ⟨by simpa using h1, h3.1, rfl, ?_, h3.2⟩
  simpa [List.getLast?_cons_cons] using h2

lemma isWalk_pair {gp : GridPathfinder} {x : Pos} {a b : Pos}
    (h : IsWalk gp [x] a b) : x = a ∧ b = a := by
  obtain ⟨h1, h2, _⟩ := h
  simp only [List.head?_cons, Option.some_inj] at h1
  simp only [List.getLast?_singleton, Option.some_inj] at h2
  subst h1
  exact ⟨rfl, h2.symm⟩

lemma IsWalk.cons {gp : GridPathfinder} {π : List Pos} {y b : Pos}
    (h : IsWalk gp π y b) (a : Pos) (ha : y ∈ gp.get_neighbors a) :
    IsWalk gp (a :: π) a b := by
  obtain ⟨h1, h2, h3⟩ := h
  cases π with
  | nil => simp at h1
  | cons z t =>
    obtain rfl : z = y := by simpa using h1
    exact ⟨rfl, by simpa [List.getLast?_cons_cons] using h2,
      List.chain'_cons.mpr ⟨ha, h3⟩⟩

lemma IsWalk.snoc {gp : GridPathfinder} {π : List Pos} {a b q : Pos}
    (h : IsWalk gp π a b) (hq : q ∈ gp.get_neighbors b) :
    IsWalk gp (π ++ [q]) a q := by
  obtain ⟨h1, h2, h3⟩ := h
  refine ⟨?_, by simp [List.getLast?_concat], ?_⟩
  · cases π with
    | nil => simp at h1
    | cons x t => simpa using h1
  · rw [List.chain'_append]
    refine ⟨h3, List.chain'_singleton q, ?_⟩
    intro x hx y hy
    simp only [List.head?_cons, Option.mem_def, Option.some_inj] at hy
    rw [h2] at hx
    simp only [Option.mem_def, Option.some_inj] at hx
    subst hx
    subst hy
    exact hq

lemma reachN_self (gp : GridPathfinder) (a : Pos) : ReachN gp a a 0 :=
  ⟨[a], isWalk_single gp a, rfl⟩

lemma reachN_zero {gp : GridPathfinder} {a b : Pos} (h : ReachN gp a b 0) : b = a := by
  obtain ⟨π, hw, hl⟩ := h
  cases π with
  | nil => simp at hl
  | cons x t =>
    cases t with
    | nil => exact (isWalk_pair hw).2
    | cons y u => simp at hl

lemma reachN_cons {gp : GridPathfinder} {a y b : Pos} {n : Nat}
    (ha : y ∈ gp.get_neighbors a) (h : ReachN gp y b n) : ReachN gp a b (n + 1) := by
  obtain ⟨π, hw, hl⟩ := h
  exact ⟨a :: π, hw.cons a ha, by simp [hl]⟩

lemma reachN_snoc {gp : GridPathfinder} {a b q : Pos} {n : Nat}
    (h : ReachN gp a b n) (hq : q ∈ gp.get_neighbors b) : ReachN gp a q (n + 1) := by
  obtain ⟨π, hw, hl⟩ := h
  exact ⟨π ++ [q], hw.snoc hq, by simp [hl]⟩

lemma walk_mem_closed {gp : GridPathfinder} {ex : Finset Pos}
    (hcl : ∀ p ∈ ex, ∀ q ∈ gp.get_neighbors p, q ∈ ex) :
    ∀ (π : List Pos) (a b : Pos), IsWalk gp π a b → a ∈ ex → b ∈ ex := by
  intro π
  induction π with
  | nil => intro a b h _; exact absurd rfl (isWalk_nonempty h)
  | cons x t ih =>
    intro a b h ha
    cases t with
    | nil =>
      obtain ⟨_, rfl⟩ := isWalk_pair h
      exact ha
    | cons y u =>
      obtain ⟨rfl, hy, hw⟩ := isWalk_cons h
      exact ih y b hw (hcl x ha y hy)

lemma isWalk_specWalk {gp : GridPathfinder} :
    ∀ {π : List Pos} {a b : Pos}, IsWalk gp π a b → specOpen gp a → SpecWalk gp π a b := by
  intro π
  induction π with
  | nil => intro a b h _; exact absurd rfl (isWalk_nonempty h)
  | cons x t ih =>
    intro a b h ha
    cases t with
    | nil =>
      obtain ⟨rfl, rfl⟩ := isWalk_pair h
      refine ⟨rfl, rfl, ?_, List.chain'_singleton _⟩
      intro p hp
      simp only [List.mem_singleton] at hp
      subst hp
      exact ha
    | cons y u =>
      obtain ⟨rfl, hy, hw⟩ := isWalk_cons h
      have hyo : specOpen gp y := by
        rw [mem_get_neighbors] at hy
        exact ⟨hy.2.1, hy.2.2⟩
      obtain ⟨hh1, hh2, hall, hch⟩ := ih hw hyo
      refine ⟨rfl, by simpa [List.getLast?_cons_cons] using hh2, ?_, ?_⟩
      · intro p hp
        rcases List.mem_cons.mp hp with rfl | hp
        · exact ha
        · exact hall p hp
      · exact List.chain'_cons.mpr ⟨(specAdj_open_iff_neighbor.mpr hy).1, hch⟩

lemma specWalk_isWalk {gp : GridPathfinder} :
    ∀ {π : List Pos} {a b : Pos}, SpecWalk gp π a b → IsWalk gp π a b := by
  intro π
  induction π with
  | nil => intro a b h; simpa using h.1
  | cons x t ih =>
    intro a b h
    obtain ⟨h1, h2, hall, hch⟩ := h
    cases t with
    | nil => exact ⟨h1, h2, List.chain'_singleton x⟩
    | cons y u =>
      rw [List.chain'_cons] at hch
      have hyw : SpecWalk gp (y :: u) y b :=
        ⟨rfl, by simpa [List.getLast?_cons_cons] using h2,
          fun p hp => hall p (List.mem_cons_of_mem _ hp), hch.2⟩
      have hyo : specOpen gp y := hall y (by simp)
      have hmem : y ∈ gp.get_neighbors x :=
        specAdj_open_iff_neighbor.mp ⟨hch.1, hyo⟩
      obtain rfl : x = a := by simpa using h1
      exact (ih hyw).cons x hmem

/-! Facts about `find_position`. -/

lemma scanRow_spec {row : List Char} {cols : Nat} {ch : Char} {j : Nat}
    (h : scanRow row cols ch = some j) : j < cols ∧ row.getD j ' ' = ch := by
  unfold scanRow at h
  have h1 := List.find?_some h
  have h2 := List.mem_of_find?_eq_some h
  exact ⟨List.mem_range.mp h2, by simpa using h1⟩

lemma scanRow_none {row : List Char} {cols : Nat} {ch : Char} (hch : ch ≠ ' ')
    (hrow : ∀ c ∈ row, c ≠ ch) : scanRow row cols ch = none := by
  unfold scanRow
  rw [List.find?_eq_none]
  intro j _
  simp only [beq_eq_false_iff_ne, ne_eq, beq_iff_eq]
  by_cases hj : j < row.length
  · intro hc
    refine hrow _ ?_ hc
    rw [List.getD_eq_getElem row ' ' hj]
    exact List.getElem_mem hj
  · rw [List.getD_eq_default row ' ' (by omega)]
    exact fun hc => hch hc.symm

lemma findPosAux_spec {cols : Nat} {ch : Char} :
    ∀ (grid : List (List Char)) (i0 : Nat) (p : Pos),
      findPosAux cols ch i0 grid = some p →
      ∃ i j : Nat, p = (((i0 + i : Nat) : Int), (j : Int)) ∧ i < grid.length ∧
        j < cols ∧ (grid.getD i []).getD j ' ' = ch := by
  intro grid
  induction grid with
  | nil => intro i0 p h; simp [findPosAux] at h
  | cons row rest ih =>
    intro i0 p h
    unfold findPosAux at h
    rcases hscan : scanRow row cols ch with _ | j
    · rw [hscan] at h
      obtain ⟨i, j, rfl, hi, hj, hc⟩ := ih (i0 + 1) p h
      refine ⟨i + 1, j, ?_, by simpa using hi, hj, by simpa using hc⟩
      have : i0 + 1 + i = i0 + (i + 1) := by omega
      rw [this]
    · rw [hscan] at h
      obtain ⟨hj, hc⟩ := scanRow_spec hscan
      refine ⟨0, j, ?_, by simp, hj, by simpa using hc⟩
      simp only [Option.some_inj] at h
      rw [← h]
      simp

lemma find_position_spec {grid : List (List Char)} {cols : Nat} {ch : Char} {p : Pos}
    (h : find_position grid cols ch = some p) :
    ∃ i j : Nat, p = ((i : Int), (j : Int)) ∧ i < grid.length ∧ j < cols ∧
      (grid.getD i []).getD j ' ' = ch := by
  obtain ⟨i, j, hp, hi, hj, hc⟩ := findPosAux_spec grid 0 p h
  exact ⟨i, j, by simpa using hp, hi, hj, hc⟩

lemma findPosAux_none {cols : Nat} {ch : Char} (hch : ch ≠ ' ') :
    ∀ (grid : List (List Char)), (∀ row ∈ grid, ∀ c ∈ row, c ≠ ch) →
      ∀ i0, findPosAux cols ch i0 grid = none := by
  intro grid
  induction grid with
  | nil => intro _ i0; rfl
  | cons row rest ih =>
    intro hg i0
    unfold findPosAux
    rw [scanRow_none hch (hg row (by simp))]
    exact ih (fun r hr => hg r (List.mem_cons_of_mem _ hr)) (i0 + 1)

/-- A marker position returned by `find_position` is in bounds and carries the
searched character (stated for any `gp` whose `rows` field counts the grid
rows, as `GridPathfinder.make` guarantees). -/
lemma marker_spec {gp : GridPathfinder} (hrows : gp.rows = gp.grid.length)
    {ch : Char} {p : Pos} (h : find_position gp.grid gp.cols ch = some p) :
    inB gp p ∧ cellAt gp.grid p = ch := by
  obtain ⟨i, j, rfl, hi, hj, hc⟩ := find_position_spec h
  refine ⟨⟨?_, ?_, ?_, ?_⟩, by simpa [cellAt] using hc⟩
  · exact Int.natCast_nonneg i
  · show ((i : Nat) : Int) < ((gp.rows : Nat) : Int)
    rw [hrows]
    exact_mod_cast hi
  · exact Int.natCast_nonneg j
  · show ((j : Nat) : Int) < ((gp.cols : Nat) : Int)
    exact_mod_cast hj

lemma make_start_open {g : List String} {s : Pos}
    (h : (GridPathfinder.make g).start = some s) :
    specOpen (GridPathfinder.make g) s ∧ cellAt (GridPathfinder.make g).grid s = 'S' := by
  obtain ⟨hb, hc⟩ := @marker_spec (GridPathfinder.make g) rfl _ _ h
  refine ⟨⟨hb, ?_⟩, hc⟩
  rw [hc]
  decide

lemma make_goal_open {g : List String} {gl : Pos}
    (h : (GridPathfinder.make g).goal = some gl) :
    specOpen (GridPathfinder.make g) gl ∧
      cellAt (GridPathfinder.make g).grid gl = 'G' := by
  obtain ⟨hb, hc⟩ := @marker_spec (GridPathfinder.make g) rfl _ _ h
  refine ⟨⟨hb, ?_⟩, hc⟩
  rw [hc]
  decide

/-! Termination: the fuel `FUEL gp` always suffices.  Each loop iteration
either discards one stale entry, or finalizes one fresh position from the
finite candidate set while pushing at most four new entries, so
`4 * |unfinalized candidates| + |queue|` strictly decreases. -/

lemma mem_innerCells_of_inB {gp : GridPathfinder} {q : Pos} (h : inB gp q) :
    q ∈ innerCells gp := by
  obtain ⟨h1, h2, h3, h4⟩ := h
  refine Finset.mem_image.mpr ⟨(q.1.toNat, q.2.toNat), ?_, ?_⟩
  · rw [Finset.mem_product]
    constructor <;> · rw [Finset.mem_range]; omega
  · have e1 : (q.1.toNat : Int) = q.1 := Int.toNat_of_nonneg h1
    have e2 : (q.2.toNat : Int) = q.2 := Int.toNat_of_nonneg h3
    exact Prod.ext_iff.mpr ⟨e1, e2⟩

lemma neighbors_mem_cands {gp : GridPathfinder} {s p q : Pos}
    (h : q ∈ gp.get_neighbors p) : q ∈ cands gp s := by
  rw [mem_get_neighbors] at h
  exact Finset.mem_insert_of_mem (mem_innerCells_of_inB h.2.1)

lemma cands_card {gp : GridPathfinder} {s : Pos} :
    (cands gp s).card ≤ gp.rows * gp.cols + 1 := by
  have h1 : (innerCells gp).card ≤ gp.rows * gp.cols := by
    calc (innerCells gp).card
        ≤ (Finset.range gp.rows ×ˢ Finset.range gp.cols).card := Finset.card_image_le
      _ = gp.rows * gp.cols := by
          rw [Finset.card_product, Finset.card_range, Finset.card_range]
  have h2 := Finset.card_insert_le s (innerCells gp)
  unfold cands
  omega

lemma relaxList_pq_mem :
    ∀ (qs : List Pos) (pq : List Entry) (dist : Pos → Option Nat) (d : Nat)
      (path : List Pos) (f : Entry), f ∈ (relaxList d path qs pq dist).1 →
      f ∈ pq ∨ f.2.1 ∈ qs := by
  intro qs
  induction qs with
  | nil => intro pq dist d path f h; exact Or.inl h
  | cons q qs ih =>
    intro pq dist d path f h
    unfold relaxList at h
    split at h
    · rcases ih _ _ _ _ _ h with hf | hf
      · rcases (pqPush_mem _ _ _).mp hf with rfl | hf
        · exact Or.inr (by simp)
        · exact Or.inl hf
      · exact Or.inr (List.mem_cons_of_mem _ hf)
    · rcases ih _ _ _ _ _ h with hf | hf
      · exact Or.inl hf
      · exact Or.inr (List.mem_cons_of_mem _ hf)

lemma relaxList_pq_length :
    ∀ (qs : List Pos) (pq : List Entry) (dist : Pos → Option Nat) (d : Nat)
      (path : List Pos),
      (relaxList d path qs pq dist).1.length ≤ pq.length + qs.length := by
  intro qs
  induction qs with
  | nil => intro pq dist d path; simp [relaxList]
  | cons q qs ih =>
    intro pq dist d path
    unfold relaxList
    split
    · have h := ih (pqPush (d + 1, q, path ++ [q]) pq)
        (fun x => if x = q then some (d + 1) else dist x) d path
      rw [pqPush_length] at h
      simp only [List.length_cons]
      omega
    · have h := ih pq dist d path
      simp only [List.length_cons]
      omega

lemma dloop_isSome (gp : GridPathfinder) (goal : Option Pos) (s : Pos) :
    ∀ (fuel : Nat) (pq : List Entry) (dist : Pos → Option Nat) (explored : Finset Pos),
      (∀ f ∈ pq, f.2.1 ∈ cands gp s) →
      4 * ((cands gp s \ explored).card) + pq.length < fuel →
      (dloop gp goal fuel pq dist explored).isSome := by
  intro fuel
  induction fuel with
  | zero => intro pq dist explored _ hm; omega
  | succ fuel ih =>
    intro pq dist explored hc hm
    cases pq with
    | nil => simp [dloop]
    | cons e rest =>
      rw [dloop]
      by_cases he : e.2.1 ∈ explored
      · rw [if_pos he]
        apply ih
        · intro f hf
          exact hc f (List.mem_cons_of_mem _ hf)
        · simp only [List.length_cons] at hm
          omega
      · rw [if_neg he]
        by_cases hg : goal = some e.2.1
        · rw [if_pos hg]
          simp
        · rw [if_neg hg]
          apply ih
          · intro f hf
            rcases relaxList_pq_mem _ _ _ _ _ f hf with hf | hf
            · exact hc f (List.mem_cons_of_mem _ hf)
            · exact neighbors_mem_cands hf
          · have hlen := relaxList_pq_length (gp.get_neighbors e.2.1) rest dist e.1 e.2.2
            have hnb := get_neighbors_length gp e.2.1
            have hmem : e.2.1 ∈ cands gp s \ explored :=
              Finset.mem_sdiff.mpr ⟨hc e (by simp), he⟩
            have hcard : ((cands gp s \ insert e.2.1 explored).card) + 1 =
                ((cands gp s \ explored).card) := by
              have herase : cands gp s \ insert e.2.1 explored =
                  (cands gp s \ explored).erase e.2.1 := by
                ext x
                simp only [Finset.mem_sdiff, Finset.mem_erase, Finset.mem_insert]
                tauto
              have hpos : 0 < (cands gp s \ explored).card :=
                Finset.card_pos.mpr ⟨_, hmem⟩
              rw [herase, Finset.card_erase_of_mem hmem]
              omega
            simp only [List.length_cons] at hm
            omega

lemma dijkstra_isSome (gp : GridPathfinder) (s : Pos) (goal : Option Pos) :
    (dijkstra gp s goal).isSome := by
  unfold dijkstra
  apply dloop_isSome gp goal s
  · intro f hf
    simp only [List.mem_singleton] at hf
    subst hf
    exact Finset.mem_insert_self s _
  · have h1 : (cands gp s \ ∅).card ≤ gp.rows * gp.cols + 1 := by
      rw [Finset.sdiff_empty]
      exact cands_card
    simp only [List.length_cons, List.length_nil]
    unfold FUEL
    omega

/-! The search invariant, and its preservation through one relaxation pass. -/

lemma relaxList_spec (gp : GridPathfinder) (s p : Pos) (d : Nat) (path : List Pos)
    (hw : IsWalk gp path s p) (hl : path.length = d + 1) :
    ∀ (qs : List Pos) (pq0 : List Entry) (dist0 : Pos → Option Nat),
      (∀ q ∈ qs, q ∈ gp.get_neighbors p) →
      pq0.Pairwise dLE →
      (∀ f ∈ pq0, IsWalk gp f.2.2 s f.2.1 ∧ f.2.2.length = f.1 + 1) →
      (∀ f ∈ pq0, ∃ v, dist0 f.2.1 = some v ∧ v ≤ f.1) →
      (∀ x v, dist0 x = some v → ReachN gp s x v) →
      RelaxOut gp s d qs pq0 dist0 (relaxList d path qs pq0 dist0) := by
  intro qs
  induction qs with
  | nil =>
    intro pq0 dist0 hqs hsort hew hed hds
    refine ⟨hsort, hew, hed, hds, ?_, ?_, ?_, ?_, ?_⟩
    · intro x v hx
      exact ⟨v, hx, le_refl v⟩
    · intro x v hx
      exact Or.inl hx
    · intro f hf
      exact hf
    · intro q hq
      simp at hq
    · intro x v hx _
      exact hx
  | cons q qs ih =>
    intro pq0 dist0 hqs hsort hew hed hds
    have hq : q ∈ gp.get_neighbors p := hqs q (by simp)
    have hreach_q : ReachN gp s q (d + 1) := ⟨path ++ [q], hw.snoc hq, by simp [hl]⟩
    unfold relaxList
    split
    · rename_i hguard
      set pq1 := pqPush (d + 1, q, path ++ [q]) pq0 with hpq1
      set dist1 := fun x => if x = q then some (d + 1) else dist0 x with hdist1
      have hnew_mem : ((d + 1, q, path ++ [q]) : Entry) ∈ pq1 :=
        (pqPush_mem _ _ _).mpr (Or.inl rfl)
      have hout := ih pq1 dist1 (fun r hr => hqs r (List.mem_cons_of_mem _ hr))
        (pqPush_pairwise _ _ hsort) ?hew1 ?hed1 ?hds1
      case hew1 =>
        intro f hf
        rcases (pqPush_mem _ _ _).mp hf with rfl | hf
        · exact ⟨hw.snoc hq, by simp [hl]⟩
        · exact hew f hf
      case hed1 =>
        intro f hf
        rcases (pqPush_mem _ _ _).mp hf with rfl | hf
        · exact ⟨d + 1, by simp [hdist1], le_refl _⟩
        · obtain ⟨v, hv, hvle⟩ := hed f hf
          by_cases hfq : f.2.1 = q
          · refine ⟨d + 1, by simp [hdist1, hfq], ?_⟩
            rw [hfq] at hv
            have hg := hguard
            rw [hv] at hg
            simp only [ltInf, decide_eq_true_eq] at hg
            omega
          · refine ⟨v, ?_, hvle⟩
            simp only [hdist1, if_neg hfq]
            exact hv
      case hds1 =>
        intro x v hx
        by_cases hxq : x = q
        · subst hxq
          simp only [hdist1, if_pos rfl, Option.some_inj] at hx
          rw [← hx]
          exact hreach_q
        · simp only [hdist1, if_neg hxq] at hx
          exact hds x v hx
      refine ⟨hout.sortedD, hout.entryWalk, hout.entryDist, hout.distSound,
        ?_, ?_, ?_, ?_, ?_⟩
      · intro x v hx
        by_cases hxq : x = q
        · subst hxq
          obtain ⟨v2, hv2, hle⟩ := hout.mono x (d + 1) (by simp [hdist1])
          refine ⟨v2, hv2, ?_⟩
          have hg := hguard
          rw [hx] at hg
          simp only [ltInf, decide_eq_true_eq] at hg
          omega
        · refine hout.mono x v ?_
          simp only [hdist1, if_neg hxq]
          exact hx
      · intro x v hx
        rcases hout.newPending x v hx with h1 | h1
        · by_cases hxq : x = q
          · subst hxq
            simp only [hdist1, if_pos rfl, Option.some_inj] at h1
            exact Or.inr ⟨(d + 1, x, path ++ [x]), hout.superset _ hnew_mem, rfl, h1⟩
          · left
            simpa only [hdist1, if_neg hxq] using h1
        · exact Or.inr h1
      · intro f hf
        exact hout.superset f ((pqPush_mem _ _ _).mpr (Or.inr hf))
      · intro r hr
        rcases List.mem_cons.mp hr with rfl | hr
        · obtain ⟨v2, hv2, hle⟩ := hout.mono r (d + 1) (by simp [hdist1])
          exact ⟨v2, hv2, hle⟩
        · exact hout.relaxed r hr
      · intro x v hx hmin
        by_cases hxq : x = q
        · subst hxq
          exfalso
          have hg := hguard
          rw [hx] at hg
          simp only [ltInf, decide_eq_true_eq] at hg
          exact absurd (hmin _ hreach_q) (by omega)
        · refine hout.frozen x v ?_ hmin
          simp only [hdist1, if_neg hxq]
          exact hx
    · rename_i hguard
      have hout := ih pq0 dist0 (fun r hr => hqs r (List.mem_cons_of_mem _ hr))
        hsort hew hed hds
      refine ⟨hout.sortedD, hout.entryWalk, hout.entryDist, hout.distSound,
        hout.mono, hout.newPending, hout.superset, ?_, hout.frozen⟩
      intro r hr
      rcases List.mem_cons.mp hr with rfl | hr
      · rcases hv : dist0 r with _ | v
        · rw [hv] at hguard
          simp [ltInf] at hguard
        · have hvle : v ≤ d + 1 := by
            rw [hv] at hguard
            simp only [ltInf, decide_eq_true_eq] at hguard
            omega
          obtain ⟨v2, hv2, hle2⟩ := hout.mono r v hv
          exact ⟨v2, hv2, by omega⟩
      · exact hout.relaxed r hr

/-- On any walk from `a` to an unfinalized endpoint there is a first
unfinalized position: either `a` itself, or the successor of a finalized
position, and it is reached within the walk's edge budget. -/
lemma first_unexplored (gp : GridPathfinder) (ex : Finset Pos) :
    ∀ (π : List Pos) (a b : Pos), IsWalk gp π a b → b ∉ ex →
      ∃ q k, q ∉ ex ∧ ReachN gp a q k ∧ k + 1 ≤ π.length ∧
        ((q = a ∧ k = 0) ∨
          ∃ r j, r ∈ ex ∧ q ∈ gp.get_neighbors r ∧ ReachN gp a r j ∧ k = j + 1) := by
  intro π
  induction π with
  | nil => intro a b h _; exact absurd rfl (isWalk_nonempty h)
  | cons x t ih =>
    intro a b h hb
    by_cases ha : a ∈ ex
    · cases t with
      | nil =>
        obtain ⟨hxa, hba⟩ := isWalk_pair h
        exact absurd (hba ▸ ha) hb
      | cons y u =>
        obtain ⟨rfl, hy, hw⟩ := isWalk_cons h
        obtain ⟨q, k, hqex, hreach, hlen, hdisj⟩ := ih y b hw hb
        refine ⟨q, k + 1, hqex, reachN_cons hy hreach, ?_, Or.inr ?_⟩
        · simp only [List.length_cons] at hlen ⊢
          omega
        · rcases hdisj with ⟨rfl, rfl⟩ | ⟨r, j, hr, hqr, hrj, rfl⟩
          · exact ⟨x, 0, ha, hy, reachN_self gp x, rfl⟩
          · exact ⟨r, j + 1, hr, hqr, reachN_cons hy hrj, rfl⟩
    · refine ⟨a, 0, ha, reachN_self gp a, ?_, Or.inl ⟨rfl, rfl⟩⟩
      simp

/-- When the head of the queue carries an unfinalized position, its recorded
distance is minimal over all walks from the start, and agrees with the
distance map (the classic Dijkstra pop argument). -/
lemma head_min (gp : GridPathfinder) (s : Pos) (goal : Option Pos)
    {e : Entry} {rest : List Entry} {dist : Pos → Option Nat} {explored : Finset Pos}
    (hinv : LoopInv gp s goal (e :: rest) dist explored) (hp : e.2.1 ∉ explored) :
    (∀ m, ReachN gp s e.2.1 m → e.1 ≤ m) ∧ dist e.2.1 = some e.1 := by
  have hmin : ∀ m, ReachN gp s e.2.1 m → e.1 ≤ m := by
    intro m hm
    obtain ⟨π, hwπ, hlπ⟩ := hm
    obtain ⟨q, k, hqex, hreach, hlen, hdisj⟩ :=
      first_unexplored gp explored π s e.2.1 hwπ hp
    have hvq : ∃ vq, dist q = some vq ∧ vq ≤ k := by
      rcases hdisj with ⟨rfl, rfl⟩ | ⟨r, j, hr, hqr, hrj, rfl⟩
      · exact ⟨0, hinv.distStart, le_refl 0⟩
      · obtain ⟨vr, hvr, hvrmin⟩ := hinv.expOpt r hr
        obtain ⟨vp2, vq2, hvp2, hvq2, hle2⟩ := hinv.expRelax r hr q hqr
        rw [hvr] at hvp2
        simp only [Option.some_inj] at hvp2
        have h1 : vr ≤ j := hvrmin j hrj
        exact ⟨vq2, hvq2, by omega⟩
    obtain ⟨vq, hvqd, hvqk⟩ := hvq
    obtain ⟨f, hfmem, hfq, hfv⟩ := hinv.pending q hqex vq hvqd
    have hef : e.1 ≤ f.1 := by
      rcases List.mem_cons.mp hfmem with rfl | hf
      · exact le_refl _
      · exact (List.pairwise_cons.mp hinv.sortedD).1 f hf
    omega
  refine ⟨hmin, ?_⟩
  obtain ⟨v, hv, hvle⟩ := hinv.entryDist e (by simp)
  have hge : e.1 ≤ v := hmin v (hinv.distSound _ v hv)
  have hveq : v = e.1 := by omega
  rw [hveq] at hv
  exact hv

/-- Postcondition of the search loop, given the invariant: on success the
returned path is an optimal walk from start to goal and both endpoints are
finalized; on exhaustion the finalized set contains the start, is closed
under neighbors, consists of reachable positions, and misses the goal. -/
lemma dloop_post (gp : GridPathfinder) (s : Pos) (goal : Option Pos) :
    ∀ (fuel : Nat) (pq : List Entry) (dist : Pos → Option Nat) (explored : Finset Pos),
      LoopInv gp s goal pq dist explored →
      ∀ res, dloop gp goal fuel pq dist explored = some res →
        explored ⊆ res.2 ∧
        (∀ π, res.1 = some π → ∃ p d, goal = some p ∧ p ∈ res.2 ∧ s ∈ res.2 ∧
          IsWalk gp π s p ∧ π.length = d + 1 ∧ ∀ m, ReachN gp s p m → d ≤ m) ∧
        (res.1 = none → s ∈ res.2 ∧ (∀ p ∈ res.2, ∃ m, ReachN gp s p m) ∧
          (∀ p ∈ res.2, ∀ q ∈ gp.get_neighbors p, q ∈ res.2) ∧
          (∀ g0, goal = some g0 → g0 ∉ res.2)) := by
  intro fuel
  induction fuel with
  | zero => intro pq dist explored _ res hres; simp [dloop] at hres
  | succ fuel ih =>
    intro pq dist explored hinv res hres
    cases pq with
    | nil =>
      simp only [dloop, Option.some_inj] at hres
      subst hres
      refine ⟨Finset.Subset.refl _, ?_, ?_⟩
      · intro π hπ
        simp at hπ
      · intro _
        have hs : s ∈ explored := by
          by_contra hs
          obtain ⟨f, hf, _⟩ := hinv.pending s hs 0 hinv.distStart
          simp at hf
        refine ⟨hs, ?_, ?_, ?_⟩
        · intro p hp
          obtain ⟨v, hv, _⟩ := hinv.expOpt p hp
          exact ⟨v, hinv.distSound p v hv⟩
        · intro p hp q hq
          obtain ⟨vp, vq, hvp, hvq, _⟩ := hinv.expRelax p hp q hq
          by_contra hqex
          obtain ⟨f, hf, _⟩ := hinv.pending q hqex vq hvq
          simp at hf
        · exact hinv.goalNotExp
    | cons e rest =>
      rw [dloop] at hres
      by_cases he : e.2.1 ∈ explored
      · rw [if_pos he] at hres
        refine ih rest dist explored ?_ res hres
        refine ⟨(List.pairwise_cons.mp hinv.sortedD).2, ?_, ?_, hinv.distSound,
          hinv.distStart, hinv.expOpt, hinv.expRelax, ?_, hinv.goalNotExp⟩
        · intro f hf
          exact hinv.entryWalk f (List.mem_cons_of_mem _ hf)
        · intro f hf
          exact hinv.entryDist f (List.mem_cons_of_mem _ hf)
        · intro p hpex v hv
          obtain ⟨f, hf, hfp, hfv⟩ := hinv.pending p hpex v hv
          rcases List.mem_cons.mp hf with rfl | hf
          · exact absurd (hfp ▸ he) hpex
          · exact ⟨f, hf, hfp, hfv⟩
      · rw [if_neg he] at hres
        obtain ⟨hmin, hdp⟩ := head_min gp s goal hinv he
        by_cases hg : goal = some e.2.1
        · rw [if_pos hg] at hres
          simp only [Option.some_inj] at hres
          subst hres
          refine ⟨Finset.subset_insert _ _, ?_, ?_⟩
          · intro π hπ
            simp only [Option.some_inj] at hπ
            subst hπ
            obtain ⟨hwe, hle⟩ := hinv.entryWalk e (by simp)
            refine ⟨e.2.1, e.1, hg, Finset.mem_insert_self _ _, ?_, hwe, hle, hmin⟩
            by_cases hse : s = e.2.1
            · rw [hse]
              exact Finset.mem_insert_self _ _
            · by_contra hs
              have hsex : s ∉ explored := fun h => hs (Finset.mem_insert_of_mem h)
              obtain ⟨f, hf, hfs, hfv⟩ := hinv.pending s hsex 0 hinv.distStart
              have hef : e.1 ≤ f.1 := by
                rcases List.mem_cons.mp hf with rfl | hf2
                · exact le_refl _
                · exact (List.pairwise_cons.mp hinv.sortedD).1 f hf2
              have h0 : e.1 = 0 := by omega
              have hre : ReachN gp s e.2.1 e.1 := hinv.distSound _ _ hdp
              rw [h0] at hre
              exact hse (reachN_zero hre).symm
          · intro h0
            simp at h0
        · rw [if_neg hg] at hres
          obtain ⟨hwe, hle⟩ := hinv.entryWalk e (by simp)
          have hrelax := relaxList_spec gp s e.2.1 e.1 e.2.2 hwe hle
            (gp.get_neighbors e.2.1) rest dist (fun q hq => hq)
            (List.pairwise_cons.mp hinv.sortedD).2
            (fun f hf => hinv.entryWalk f (List.mem_cons_of_mem _ hf))
            (fun f hf => hinv.entryDist f (List.mem_cons_of_mem _ hf))
            hinv.distSound
          have hinv2 : LoopInv gp s goal
              (relaxList e.1 e.2.2 (gp.get_neighbors e.2.1) rest dist).1
              (relaxList e.1 e.2.2 (gp.get_neighbors e.2.1) rest dist).2
              (insert e.2.1 explored) := by
            refine ⟨hrelax.sortedD, hrelax.entryWalk, hrelax.entryDist,
              hrelax.distSound, ?_, ?_, ?_, ?_, ?_⟩
            · exact hrelax.frozen s 0 hinv.distStart (fun m _ => Nat.zero_le m)
            · intro p hpmem
              rcases Finset.mem_insert.mp hpmem with rfl | hpmem
              · exact ⟨e.1, hrelax.frozen _ e.1 hdp hmin, hmin⟩
              · obtain ⟨v, hv, hvm⟩ := hinv.expOpt p hpmem
                exact ⟨v, hrelax.frozen p v hv hvm, hvm⟩
            · intro p hpmem q hq
              rcases Finset.mem_insert.mp hpmem with rfl | hpmem
              · obtain ⟨vq, hvq, hvqle⟩ := hrelax.relaxed q hq
                exact ⟨e.1, vq, hrelax.frozen _ e.1 hdp hmin, hvq, hvqle⟩
              · obtain ⟨vp, vq, hvp, hvq, hle2⟩ := hinv.expRelax p hpmem q hq
                obtain ⟨v, hv, hvm⟩ := hinv.expOpt p hpmem
                have hveq : vp = v := by
                  rw [hv] at hvp
                  simpa using hvp.symm
                obtain ⟨vq2, hvq2, hle3⟩ := hrelax.mono q vq hvq
                refine ⟨vp, vq2, ?_, hvq2, by omega⟩
                rw [hveq]
                exact hrelax.frozen p v hv hvm
            · intro x hxex v hv
              rcases hrelax.newPending x v hv with h1 | h1
              · have hxex2 : x ∉ explored :=
                  fun h => hxex (Finset.mem_insert_of_mem h)
                obtain ⟨f, hf, hfx, hfv⟩ := hinv.pending x hxex2 v h1
                rcases List.mem_cons.mp hf with rfl | hf2
                · exact absurd (hfx ▸ Finset.mem_insert_self f.2.1 explored) hxex
                · exact ⟨f, hrelax.superset f hf2, hfx, hfv⟩
              · exact h1
            · intro g0 hg0
              rw [Finset.mem_insert]
              rintro (rfl | hmem)
              · exact hg hg0
              · exact hinv.goalNotExp g0 hg0 hmem
          have hpost := ih _ _ _ hinv2 res hres
          exact ⟨Finset.Subset.trans (Finset.subset_insert _ _) hpost.1,
            hpost.2.1, hpost.2.2⟩

lemma loopInv_init (gp : GridPathfinder) (s : Pos) (goal : Option Pos) :
    LoopInv gp s goal [(0, s, [s])] (fun q => if q = s then some 0 else none) ∅ := by
  refine ⟨?_, ?_, ?_, ?_, ?_, ?_, ?_, ?_, ?_⟩
  · simp
  · intro f hf
    simp only [List.mem_singleton] at hf
    subst hf
    exact ⟨isWalk_single gp s, rfl⟩
  · intro f hf
    simp only [List.mem_singleton] at hf
    subst hf
    exact ⟨0, by simp, le_refl 0⟩
  · intro p v hv
    split at hv
    · rename_i hps
      subst hps
      simp only [Option.some_inj] at hv
      rw [← hv]
      exact reachN_self gp p
    · simp at hv
  · simp
  · intro p hp
    simp at hp
  · intro p hp
    simp at hp
  · intro p _ v hv
    split at hv
    · rename_i hps
      subst hps
      simp only [Option.some_inj] at hv
      exact ⟨(0, p, [p]), by simp, rfl, hv⟩
    · simp at hv
  · intro g0 _
    simp

lemma dijkstra_result (gp : GridPathfinder) (s : Pos) (goal : Option Pos) :
    ∃ res, dijkstra gp s goal = some res ∧
      (∀ π, res.1 = some π → ∃ p d, goal = some p ∧ p ∈ res.2 ∧ s ∈ res.2 ∧
        IsWalk gp π s p ∧ π.length = d + 1 ∧ ∀ m, ReachN gp s p m → d ≤ m) ∧
      (res.1 = none → s ∈ res.2 ∧ (∀ p ∈ res.2, ∃ m, ReachN gp s p m) ∧
        (∀ p ∈ res.2, ∀ q ∈ gp.get_neighbors p, q ∈ res.2) ∧
        (∀ g0, goal = some g0 → g0 ∉ res.2)) := by
  obtain ⟨res, hres⟩ := Option.isSome_iff_exists.mp (dijkstra_isSome gp s goal)
  have hres2 : dloop gp goal (FUEL gp) [(0, s, [s])]
      (fun q => if q = s then some 0 else none) ∅ = some res := hres
  have hpost := dloop_post gp s goal (FUEL gp) _ _ _ (loopInv_init gp s goal) res hres2
  exact ⟨res, hres, hpost.2.1, hpost.2.2⟩

/-- When some walk connects start to goal, the search returns a path that is
itself a walk of optimal edge count, and both endpoints are explored. -/
lemma dijkstra_success (gp : GridPathfinder) (s gl : Pos)
    (hconn : ∃ π, IsWalk gp π s gl) :
    ∃ π ex d, dijkstra gp s (some gl) = some (some π, ex) ∧
      IsWalk gp π s gl ∧ π.length = d + 1 ∧ (∀ m, ReachN gp s gl m → d ≤ m) ∧
      s ∈ ex ∧ gl ∈ ex := by
  obtain ⟨res, hres, hsome, hnone⟩ := dijkstra_result gp s (some gl)
  obtain ⟨r1, ex⟩ := res
  rcases r1 with _ | π
  · exfalso
    obtain ⟨hs, hreach, hcl, hgoal⟩ := hnone rfl
    obtain ⟨π, hw⟩ := hconn
    exact hgoal gl rfl (walk_mem_closed hcl π s gl hw hs)
  · obtain ⟨p, d, hgl, hpmem, hsmem, hw, hlen, hmin⟩ := hsome π rfl
    simp only [Option.some_inj] at hgl
    subst hgl
    exact ⟨π, ex, d, hres, hw, hlen, hmin, hsmem, hpmem⟩

/-- The wrapper on a present start marker reduces to the core search. -/
lemma find_eq_of_start {gp : GridPathfinder} {s : Pos} (hs : gp.start = some s) :
    gp.find_shortest_path = match dijkstra gp s gp.goal with
      | none => SearchOutcome.fuelOut
      | some r => SearchOutcome.ok r := by
  unfold GridPathfinder.find_shortest_path
  rw [hs]

/-- A successful wrapper return comes from a successful core search. -/
lemma ok_to_dijkstra {gp : GridPathfinder} {s : Pos} (hs : gp.start = some s)
    {res : Option (List Pos) × Finset Pos}
    (hok : gp.find_shortest_path = SearchOutcome.ok res) :
    dijkstra gp s gp.goal = some res := by
  rw [find_eq_of_start hs] at hok
  rcases hdd : dijkstra gp s gp.goal with _ | r
  · rw [hdd] at hok
    simp at hok
  · rw [hdd] at hok
    simp only [SearchOutcome.ok.injEq] at hok
    rw [hok]

/-- On a grid whose in-bounds cells are all unblocked, any two in-bounds
positions are joined by a walk of exactly Manhattan-distance many edges. -/
lemma walk_exists_manh (gp : GridPathfinder)
    (hopen : ∀ p : Pos, inB gp p → cellAt gp.grid p ≠ '1') :
    ∀ (n : Nat) (a b : Pos), inB gp a → inB gp b → manh a b = n →
      ∃ π, IsWalk gp π a b ∧ π.length = n + 1 := by
  intro n
  induction n with
  | zero =>
    intro a b ha hb hm
    have hab : a = b := by
      rw [Prod.ext_iff]
      unfold manh at hm
      constructor <;> omega
    subst hab
    exact ⟨[a], isWalk_single gp a, rfl⟩
  | succ n ih =>
    intro a b ha hb hm
    obtain ⟨ha1, ha2, ha3, ha4⟩ := ha
    obtain ⟨hb1, hb2, hb3, hb4⟩ := hb
    have hstep : ∃ a2 : Pos, a2 ∈ gp.get_neighbors a ∧ manh a2 b = n := by
      rcases lt_trichotomy a.1 b.1 with h1 | h1 | h1
      · refine ⟨(a.1 + 1, a.2), ?_, ?_⟩
        · rw [mem_get_neighbors]
          have hib : inB gp (a.1 + 1, a.2) := ⟨by omega, by omega, ha3, ha4⟩
          exact ⟨Or.inr (Or.inl (by rw [Prod.ext_iff]; constructor <;> simp)),
            hib, hopen _ hib⟩
        · unfold manh at hm ⊢
          simp only at hm ⊢
          omega
      · rcases lt_trichotomy a.2 b.2 with h2 | h2 | h2
        · refine ⟨(a.1, a.2 + 1), ?_, ?_⟩
          · rw [mem_get_neighbors]
            have hib : inB gp (a.1, a.2 + 1) := ⟨ha1, ha2, by omega, by omega⟩
            exact ⟨Or.inr (Or.inr (Or.inr (by rw [Prod.ext_iff]; constructor <;> simp))),
              hib, hopen _ hib⟩
          · unfold manh at hm ⊢
            simp only at hm ⊢
            omega
        · exfalso
          unfold manh at hm
          omega
        · refine ⟨(a.1, a.2 - 1), ?_, ?_⟩
          · rw [mem_get_neighbors]
            have hib : inB gp (a.1, a.2 - 1) := ⟨ha1, ha2, by omega, by omega⟩
            refine ⟨Or.inr (Or.inr (Or.inl ?_)), hib, hopen _ hib⟩
            rw [Prod.ext_iff]
            constructor <;> simp <;> omega
          · unfold manh at hm ⊢
            simp only at hm ⊢
            omega
      · refine ⟨(a.1 - 1, a.2), ?_, ?_⟩
        · rw [mem_get_neighbors]
          have hib : inB gp (a.1 - 1, a.2) := ⟨by omega, by omega, ha3, ha4⟩
          refine ⟨Or.inl ?_, hib, hopen _ hib⟩
          rw [Prod.ext_iff]
          constructor <;> simp <;> omega
        · unfold manh at hm ⊢
          simp only at hm ⊢
          omega
    obtain ⟨a2, hmem, hm2⟩ := hstep
    have hib2 : inB gp a2 := by
      rw [mem_get_neighbors] at hmem
      exact hmem.2.1
    obtain ⟨π, hw, hl⟩ := ih a2 b hib2 ⟨hb1, hb2, hb3, hb4⟩ hm2
    exact ⟨a :: π, hw.cons a hmem, by simp [hl]⟩

/-- Every walk needs at least Manhattan-distance many edges. -/
lemma manh_le_walk (gp : GridPathfinder) :
    ∀ (π : List Pos) (a b : Pos), IsWalk gp π a b → manh a b ≤ π.length - 1 := by
  intro π
  induction π with
  | nil => intro a b h; exact absurd rfl (isWalk_nonempty h)
  | cons x t ih =>
    intro a b h
    cases t with
    | nil =>
      obtain ⟨rfl, rfl⟩ := isWalk_pair h
      unfold manh
      omega
    | cons y u =>
      obtain ⟨rfl, hy, hw⟩ := isWalk_cons h
      have h1 := ih y b hw
      have h2 : manh x b ≤ manh y b + 1 := by
        rw [mem_get_neighbors] at hy
        have hadj := hy.1
        unfold manh
        rcases hadj with hc | hc | hc | hc <;>
          · rw [Prod.ext_iff] at hc
            simp only at hc
            omega
      simp only [List.length_cons] at h1 ⊢
      omega

/-- In the grid `["S1","1G"]` no connecting sequence joins `(0,0)` to `(1,1)`:
both neighbors of the start cell carry `'1'`. -/
lemma no_specWalk_wall :
    ¬ ∃ π, SpecWalk (GridPathfinder.make ["S1", "1G"]) π
      ((0 : Int), (0 : Int)) ((1 : Int), (1 : Int)) := by
  rintro ⟨π, h⟩
  obtain ⟨h1, h2, hall, hch⟩ := h
  cases π with
  | nil => simp at h1
  | cons x t =>
    obtain rfl : x = ((0 : Int), (0 : Int)) := by simpa using h1
    cases t with
    | nil => exact absurd h2 (by decide)
    | cons y u =>
      rw [List.chain'_cons] at hch
      have hmem : y ∈ (GridPathfinder.make ["S1", "1G"]).get_neighbors
          ((0 : Int), (0 : Int)) :=
        specAdj_open_iff_neighbor.mp ⟨hch.1, hall y (by simp)⟩
      have hempty : (GridPathfinder.make ["S1", "1G"]).get_neighbors
          ((0 : Int), (0 : Int)) = [] := by decide
      rw [hempty] at hmem
      simp at hmem

/-- C1: for every rectangular grid containing an `S` and a `G` cell, if at
least one sequence of orthogonal steps through in-bounds, non-`'1'` cells
connects start to goal, then `find_shortest_path` returns a path from start
to goal whose edge count (length minus one) equals the minimum edge count
over all such connecting sequences (it is such a sequence, and no connecting
sequence has fewer edges). -/
theorem C1_shortest_path_optimal (g : List String) (s gl : Pos)
    (hrect : ∀ row ∈ g, row.length = (GridPathfinder.make g).cols)
    (hs : (GridPathfinder.make g).start = some s)
    (hg : (GridPathfinder.make g).goal = some gl)
    (hconn : ∃ π, SpecWalk (GridPathfinder.make g) π s gl) :
    ∃ π ex, (GridPathfinder.make g).find_shortest_path =
        SearchOutcome.ok (some π, ex) ∧
      SpecWalk (GridPathfinder.make g) π s gl ∧
      ∀ w, SpecWalk (GridPathfinder.make g) w s gl →
        π.length - 1 ≤ w.length - 1 := by
  obtain ⟨π0, hw0⟩ := hconn
  obtain ⟨π, ex, d, hd, hw, hlen, hmin, _, _⟩ :=
    dijkstra_success (GridPathfinder.make g) s gl ⟨π0, specWalk_isWalk hw0⟩
  have hok : (GridPathfinder.make g).find_shortest_path =
      SearchOutcome.ok (some π, ex) := by
    rw [find_eq_of_start hs, hg, hd]
  refine ⟨π, ex, hok, isWalk_specWalk hw (make_start_open hs).1, ?_⟩
  intro w hwspec
  have hwis := specWalk_isWalk hwspec
  have hwpos : 0 < w.length := List.length_pos.mpr (isWalk_nonempty hwis)
  have hr : ReachN (GridPathfinder.make g) s gl (w.length - 1) :=
    ⟨w, hwis, by omega⟩
  have hdle := hmin _ hr
  omega

theorem C1_witness :
    ∃ π ex, (GridPathfinder.make ["SG"]).find_shortest_path =
        SearchOutcome.ok (some π, ex) ∧
      SpecWalk (GridPathfinder.make ["SG"]) π ((0 : Int), (0 : Int))
        ((0 : Int), (1 : Int)) ∧
      ∀ w, SpecWalk (GridPathfinder.make ["SG"]) w ((0 : Int), (0 : Int))
        ((0 : Int), (1 : Int)) → π.length - 1 ≤ w.length - 1 :=
  C1_shortest_path_optimal ["SG"] ((0 : Int), (0 : Int)) ((0 : Int), (1 : Int))
    (by decide) (by decide) (by decide)
    ⟨[((0 : Int), (0 : Int)), ((0 : Int), (1 : Int))], rfl, rfl,
      by decide, List.chain'_pair.mpr (by decide)⟩

/-- C3: on every grid on which `find_shortest_path` returns a non-null path,
consecutive path positions differ by exactly one step in one coordinate,
every path position is within bounds, and none carries the blocked marker
`'1'`. -/
theorem C3_path_cells_valid (g : List String) (s : Pos)
    (hs : (GridPathfinder.make g).start = some s) :
    ∀ π ex, (GridPathfinder.make g).find_shortest_path =
        SearchOutcome.ok (some π, ex) →
      List.Chain' specAdj π ∧
        ∀ p ∈ π, inB (GridPathfinder.make g) p ∧
          cellAt (GridPathfinder.make g).grid p ≠ '1' := by
  intro π ex hok
  have hd := ok_to_dijkstra hs hok
  obtain ⟨res, hres, hsome, _⟩ :=
    dijkstra_result (GridPathfinder.make g) s (GridPathfinder.make g).goal
  rw [hres] at hd
  simp only [Option.some_inj] at hd
  subst hd
  obtain ⟨p, dd, hgl, _, _, hw, _, _⟩ := hsome π rfl
  obtain ⟨_, _, hall, hch⟩ := isWalk_specWalk hw (make_start_open hs).1
  exact ⟨hch, hall⟩

theorem C3_witness :
    List.Chain' specAdj [((0 : Int), (0 : Int)), ((0 : Int), (1 : Int))] ∧
      ∀ p ∈ [((0 : Int), (0 : Int)), ((0 : Int), (1 : Int))],
        inB (GridPathfinder.make ["SG"]) p ∧
          cellAt (GridPathfinder.make ["SG"]).grid p ≠ '1' :=
  C3_path_cells_valid ["SG"] ((0 : Int), (0 : Int)) (by decide)
    [((0 : Int), (0 : Int)), ((0 : Int), (1 : Int))]
    (insert ((0 : Int), (1 : Int)) {((0 : Int), (0 : Int))}) (by rfl)

/-- C4: whenever no sequence of orthogonal steps through non-`'1'` cells
connects start to goal, `find_shortest_path` terminates normally with a null
path and the explored set equal to the reachable component of the start; in
particular on `["S1","1G"]` it returns a null path and explored exactly
`{(0,0)}`. -/
theorem C4_no_path (g : List String) (s gl : Pos)
    (hs : (GridPathfinder.make g).start = some s)
    (hg : (GridPathfinder.make g).goal = some gl)
    (hnoconn : ¬ ∃ π, SpecWalk (GridPathfinder.make g) π s gl) :
    (∃ ex, (GridPathfinder.make g).find_shortest_path =
        SearchOutcome.ok (none, ex) ∧
      ∀ p, p ∈ ex ↔ ∃ π, SpecWalk (GridPathfinder.make g) π s p) ∧
    (GridPathfinder.make ["S1", "1G"]).find_shortest_path =
      SearchOutcome.ok (none, {((0 : Int), (0 : Int))}) := by
  refine ⟨?_, by decide⟩
  obtain ⟨res, hres, hsome, hnone⟩ :=
    dijkstra_result (GridPathfinder.make g) s (GridPathfinder.make g).goal
  obtain ⟨r1, ex⟩ := res
  rcases r1 with _ | π
  · obtain ⟨hsmem, hreach, hcl, _⟩ := hnone rfl
    have hopen := (make_start_open hs).1
    refine ⟨ex, ?_, ?_⟩
    · rw [find_eq_of_start hs, hres]
    · intro p
      constructor
      · intro hp
        obtain ⟨m, π, hw, _⟩ := hreach p hp
        exact ⟨π, isWalk_specWalk hw hopen⟩
      · rintro ⟨π, hπ⟩
        exact walk_mem_closed hcl π s p (specWalk_isWalk hπ) hsmem
  · exfalso
    obtain ⟨p, dd, hgl, _, _, hw, _, _⟩ := hsome π rfl
    rw [hg] at hgl
    simp only [Option.some_inj] at hgl
    subst hgl
    exact hnoconn ⟨π, isWalk_specWalk hw (make_start_open hs).1⟩

theorem C4_witness :
    (∃ ex, (GridPathfinder.make ["S1", "1G"]).find_shortest_path =
        SearchOutcome.ok (none, ex) ∧
      ∀ p, p ∈ ex ↔ ∃ π, SpecWalk (GridPathfinder.make ["S1", "1G"]) π
        ((0 : Int), (0 : Int)) p) ∧
    (GridPathfinder.make ["S1", "1G"]).find_shortest_path =
      SearchOutcome.ok (none, {((0 : Int), (0 : Int))}) :=
  C4_no_path ["S1", "1G"] ((0 : Int), (0 : Int)) ((1 : Int), (1 : Int))
    (by decide) (by decide) no_specWalk_wall

/-- C5: `find_shortest_path` terminates: every call yields one of the three
actual Python outcomes (normal return, or the two marker-absent behaviors);
the fuel-exhaustion artifact of the embedding never occurs, because the loop
performs at most `FUEL` iterations. -/
theorem C5_terminates (gp : GridPathfinder) :
    (∃ res, gp.find_shortest_path = SearchOutcome.ok res) ∨
    gp.find_shortest_path = SearchOutcome.nullEcho ∨
    gp.find_shortest_path = SearchOutcome.typeError := by
  rcases hs : gp.start with _ | s
  · unfold GridPathfinder.find_shortest_path
    rw [hs]
    rcases hgo : gp.goal with _ | g0
    · exact Or.inr (Or.inl rfl)
    · exact Or.inr (Or.inr rfl)
  · rw [find_eq_of_start hs]
    obtain ⟨res, hres⟩ := Option.isSome_iff_exists.mp (dijkstra_isSome gp s gp.goal)
    rw [hres]
    exact Or.inl ⟨res, rfl⟩

/-- C6: when the constructed start equals the constructed goal,
`find_shortest_path` returns the one-element path at that position together
with the explored set containing exactly that position. -/
theorem C6_start_eq_goal (gp : GridPathfinder) (s : Pos)
    (hs : gp.start = some s) (hg : gp.goal = some s) :
    gp.find_shortest_path = SearchOutcome.ok (some [s], {s}) := by
  rw [find_eq_of_start hs, hg]
  have hd : dijkstra gp s (some s) = some (some [s], {s}) := by
    unfold dijkstra
    obtain ⟨f, hf⟩ : ∃ f, FUEL gp = f + 1 := ⟨4 * (gp.rows * gp.cols + 2) + 7, rfl⟩
    rw [hf, dloop, if_neg (Finset.not_mem_empty s), if_pos rfl]
    simp
  rw [hd]

theorem C6_witness :
    GridPathfinder.find_shortest_path
      { grid := [['S']], rows := 1, cols := 1,
        start := some ((0 : Int), (0 : Int)), goal := some ((0 : Int), (0 : Int)) } =
      SearchOutcome.ok (some [((0 : Int), (0 : Int))], {((0 : Int), (0 : Int))}) :=
  C6_start_eq_goal _ ((0 : Int), (0 : Int)) rfl rfl

/-- C8: with the start marker present, the explored set of any normal return
contains the start; when a non-null path is returned the goal marker is
present and the explored set contains the goal; and the explored set holds
no position twice. -/
theorem C8_explored_invariants (gp : GridPathfinder) (s : Pos)
    (hs : gp.start = some s) :
    ∀ pr ex, gp.find_shortest_path = SearchOutcome.ok (pr, ex) →
      s ∈ ex ∧ (∀ π, pr = some π → ∃ g0, gp.goal = some g0 ∧ g0 ∈ ex) ∧
        ex.val.Nodup := by
  intro pr ex hok
  have hd := ok_to_dijkstra hs hok
  obtain ⟨res, hres, hsome, hnone⟩ := dijkstra_result gp s gp.goal
  rw [hres] at hd
  simp only [Option.some_inj] at hd
  subst hd
  refine ⟨?_, ?_, ex.nodup⟩
  · rcases hpr : pr with _ | π
    · exact (hnone hpr).1
    · obtain ⟨p, d, _, _, hsmem, _, _, _⟩ := hsome π hpr
      exact hsmem
  · intro π hπ
    obtain ⟨p, d, hgl, hpmem, _, _, _, _⟩ := hsome π hπ
    exact ⟨p, hgl, hpmem⟩

theorem C8_witness :
    ((0 : Int), (0 : Int)) ∈
        (insert ((0 : Int), (1 : Int)) {((0 : Int), (0 : Int))} : Finset Pos) ∧
      (∀ π, (some [((0 : Int), (0 : Int)), ((0 : Int), (1 : Int))] :
          Option (List Pos)) = some π →
        ∃ g0, (GridPathfinder.make ["SG"]).goal = some g0 ∧
          g0 ∈ (insert ((0 : Int), (1 : Int)) {((0 : Int), (0 : Int))} : Finset Pos)) ∧
      (insert ((0 : Int), (1 : Int)) {((0 : Int), (0 : Int))} : Finset Pos).val.Nodup :=
  C8_explored_invariants (GridPathfinder.make ["SG"]) ((0 : Int), (0 : Int))
    (by decide) (some [((0 : Int), (0 : Int)), ((0 : Int), (1 : Int))])
    (insert ((0 : Int), (1 : Int)) {((0 : Int), (0 : Int))}) (by rfl)

/-- C9: the state-passing embeddings of `find_shortest_path` and
`visualize_path` return the construction state unchanged, and
`visualize_path` also returns its `path` and `explored` arguments unchanged
(it renders onto a fresh copy of the grid). -/
theorem C9_no_mutation (gp : GridPathfinder) (path : List Pos)
    (explored : Finset Pos) :
    (find_shortest_path_st gp).1 = gp ∧
    (visualize_path_st gp path explored).1 = gp ∧
    (visualize_path_st gp path explored).2.1 = path ∧
    (visualize_path_st gp path explored).2.2.1 = explored :=
  ⟨rfl, rfl, rfl, rfl⟩

/-- C10: `find_shortest_path` is fully deterministic: two instances
constructed from equal grid inputs are equal as states and return identical
results (identical cell sequence and identical explored set). -/
theorem C10_deterministic (g1 g2 : List String) (h : g1 = g2) :
    GridPathfinder.make g1 = GridPathfinder.make g2 ∧
    (GridPathfinder.make g1).find_shortest_path =
      (GridPathfinder.make g2).find_shortest_path := by
  subst h
  exact ⟨rfl, rfl⟩

theorem C10_witness :
    GridPathfinder.make ["SG"] = GridPathfinder.make ["SG"] ∧
    (GridPathfinder.make ["SG"]).find_shortest_path =
      (GridPathfinder.make ["SG"]).find_shortest_path :=
  C10_deterministic ["SG"] ["SG"] rfl

/-- C2, counterexample: on the grid `["0G"]` the start marker is absent and
represented as `none`, but `find_shortest_path` raises a `TypeError`
(unpacking `None` in `get_neighbors`) instead of reporting no path found
with an empty explored set; and on `["S0"]` (goal absent) the explored set
of the no-path report is the whole reachable component, not empty. -/
theorem C2_counterexample :
    (GridPathfinder.make ["0G"]).start = none ∧
    (GridPathfinder.make ["0G"]).find_shortest_path = SearchOutcome.typeError ∧
    (GridPathfinder.make ["S0"]).start = some ((0 : Int), (0 : Int)) ∧
    (GridPathfinder.make ["S0"]).goal = none ∧
    (GridPathfinder.make ["S0"]).find_shortest_path =
      SearchOutcome.ok
        (none, insert ((0 : Int), (1 : Int)) {((0 : Int), (0 : Int))}) :=
  ⟨by decide, by decide, by decide, by decide, by rfl⟩

/-- C2, amended: with a marker absent, construction completes and represents
the absence as `none` (detectable by the caller), but invoking
`find_shortest_path` does not report "no path with empty explored": with
start absent and goal present it raises a `TypeError`; with both absent it
returns the degenerate `([None], {None})` value; with start present and goal
absent it reports no path with the explored set equal to the reachable
component of the start, which contains the start and hence is nonempty. -/
theorem C2_amended :
    (∀ g : List String, (∀ str ∈ g, ∀ c ∈ str.toList, c ≠ 'S') →
      (GridPathfinder.make g).start = none) ∧
    (∀ gp : GridPathfinder, gp.start = none → ∀ p, gp.goal = some p →
      gp.find_shortest_path = SearchOutcome.typeError) ∧
    (∀ gp : GridPathfinder, gp.start = none → gp.goal = none →
      gp.find_shortest_path = SearchOutcome.nullEcho) ∧
    (∀ (g : List String) (s : Pos), (GridPathfinder.make g).start = some s →
      (GridPathfinder.make g).goal = none →
      ∃ ex, (GridPathfinder.make g).find_shortest_path =
          SearchOutcome.ok (none, ex) ∧ s ∈ ex ∧
        ∀ p, p ∈ ex ↔ ∃ π, SpecWalk (GridPathfinder.make g) π s p) := by
  refine ⟨?_, ?_, ?_, ?_⟩
  · intro g hg
    show find_position (g.map String.toList) _ 'S' = none
    unfold find_position
    apply findPosAux_none (by decide)
    intro row hrow c hc
    obtain ⟨str, hstr, rfl⟩ := List.mem_map.mp hrow
    exact hg str hstr c hc
  · intro gp h0 p hp
    unfold GridPathfinder.find_shortest_path
    rw [h0, hp]
  · intro gp h0 hp
    unfold GridPathfinder.find_shortest_path
    rw [h0, hp]
  · intro g s hs hg
    obtain ⟨res, hres, hsome, hnone⟩ :=
      dijkstra_result (GridPathfinder.make g) s (GridPathfinder.make g).goal
    obtain ⟨r1, ex⟩ := res
    rcases r1 with _ | π
    · obtain ⟨hsmem, hreach, hcl, _⟩ := hnone rfl
      have hopen := (make_start_open hs).1
      refine ⟨ex, ?_, hsmem, ?_⟩
      · rw [find_eq_of_start hs, hres]
      · intro p
        constructor
        · intro hp
          obtain ⟨m, π, hw, _⟩ := hreach p hp
          exact ⟨π, isWalk_specWalk hw hopen⟩
        · rintro ⟨π, hπ⟩
          exact walk_mem_closed hcl π s p (specWalk_isWalk hπ) hsmem
    · obtain ⟨p, d, hgoal, _⟩ := hsome π rfl
      rw [hg] at hgoal
      exact absurd hgoal (by simp)

theorem C2_amended_witness :
    (GridPathfinder.make ["0G"]).start = none ∧
    (GridPathfinder.make ["0G"]).find_shortest_path = SearchOutcome.typeError ∧
    (GridPathfinder.make ["00"]).find_shortest_path = SearchOutcome.nullEcho ∧
    ∃ ex, (GridPathfinder.make ["S0"]).find_shortest_path =
      SearchOutcome.ok (none, ex) ∧ ((0 : Int), (0 : Int)) ∈ ex ∧
      ∀ p, p ∈ ex ↔ ∃ π, SpecWalk (GridPathfinder.make ["S0"]) π
        ((0 : Int), (0 : Int)) p :=
  ⟨C2_amended.1 ["0G"] (by decide),
   C2_amended.2.1 (GridPathfinder.make ["0G"]) (by decide)
     ((0 : Int), (1 : Int)) (by decide),
   C2_amended.2.2.1 (GridPathfinder.make ["00"]) (by decide) (by decide),
   C2_amended.2.2.2 ["S0"] ((0 : Int), (0 : Int)) (by decide) (by decide)⟩

/-- C7: on every rectangular grid with no blocked cells and the two markers
present, the returned path's edge count equals the Manhattan distance
between the start and goal positions. -/
theorem C7_manhattan (g : List String) (s gl : Pos)
    (hrect : ∀ str ∈ g, str.length = (GridPathfinder.make g).cols)
    (hno1 : ∀ str ∈ g, ∀ c ∈ str.toList, c ≠ '1')
    (hs : (GridPathfinder.make g).start = some s)
    (hg : (GridPathfinder.make g).goal = some gl) :
    ∃ π ex, (GridPathfinder.make g).find_shortest_path =
        SearchOutcome.ok (some π, ex) ∧
      π.length - 1 = manh s gl := by
  have hopen : ∀ p : Pos, inB (GridPathfinder.make g) p →
      cellAt (GridPathfinder.make g).grid p ≠ '1' := by
    intro p hp hcell
    obtain ⟨h1, h2, h3, h4⟩ := hp
    have hi : p.1.toNat < (g.map String.toList).length := by
      have h2b : p.1 < ((g.map String.toList).length : Int) := h2
      omega
    have hrowmem : (g.map String.toList).getD p.1.toNat [] ∈
        g.map String.toList := by
      rw [List.getD_eq_getElem _ _ hi]
      exact List.getElem_mem hi
    obtain ⟨str, hstr, hrow⟩ := List.mem_map.mp hrowmem
    have hj : p.2.toNat < ((g.map String.toList).getD p.1.toNat []).length := by
      have hlen : ((g.map String.toList).getD p.1.toNat []).length =
          (GridPathfinder.make g).cols := by
        rw [← hrow]
        exact hrect str hstr
      rw [hlen]
      have h4b : p.2 < ((GridPathfinder.make g).cols : Int) := h4
      omega
    have hcellmem : cellAt (GridPathfinder.make g).grid p ∈
        (g.map String.toList).getD p.1.toNat [] := by
      show ((g.map String.toList).getD p.1.toNat []).getD p.2.toNat ' ' ∈
        (g.map String.toList).getD p.1.toNat []
      rw [List.getD_eq_getElem _ _ hj]
      exact List.getElem_mem hj
    rw [← hrow] at hcellmem
    exact hno1 str hstr _ hcellmem hcell
  have hsopen := (make_start_open hs).1
  have hgopen := (make_goal_open hg).1
  obtain ⟨π0, hw0, hl0⟩ := walk_exists_manh (GridPathfinder.make g) hopen
    (manh s gl) s gl hsopen.1 hgopen.1 rfl
  obtain ⟨π, ex, d, hd, hw, hlen, hmin, _, _⟩ :=
    dijkstra_success (GridPathfinder.make g) s gl ⟨π0, hw0⟩
  refine ⟨π, ex, by rw [find_eq_of_start hs, hg, hd], ?_⟩
  have hup : d ≤ manh s gl := hmin _ ⟨π0, hw0, hl0⟩
  have hlow := manh_le_walk (GridPathfinder.make g) π s gl hw
  omega

theorem C7_witness :
    ∃ π ex, (GridPathfinder.make ["S0", "0G"]).find_shortest_path =
        SearchOutcome.ok (some π, ex) ∧
      π.length - 1 = manh ((0 : Int), (0 : Int)) ((1 : Int), (1 : Int)) :=
  C7_manhattan ["S0", "0G"] ((0 : Int), (0 : Int)) ((1 : Int), (1 : Int))
    (by decide) (by decide) (by decide) (by decide)
